import Mathlib

/-!
# Verification of `velas-address-rust` (src/src/lib.rs)

Shallow embedding of the two conversion routines `eth_to_vlx` and
`vlx_to_eth` from `src/src/lib.rs`, together with the leaf utilities they
call:

* `hash_sha256` — `format!("{}", sha256::Hash::hash(byte))` from the
  `bitcoin_hashes` crate: the SHA-256 digest printed as 64 lowercase hex
  characters in emission (forward) order.  SHA-256 itself is embedded in
  full (FIPS 180-4), with 32-bit words as `Nat` truncated by `% 2^32`.
* `hex::decode` / `hex::encode` from the `hex` crate.
* `BaseX::new(BITCOIN).encode/.decode` from the `basex_rs` crate, a port of
  the JavaScript `base-x` codec: leading zero bytes map to leading `'1'`
  characters and the rest is big-endian base-58 positional notation.

Bytes are `Nat` values `< 256`; machine integers are `Nat` with explicit
truncation.  Rust strings are modelled by their character lists; all
strings that reach byte-level operations in the claims are ASCII, and the
UTF-8 byte encoding of characters is embedded faithfully.  A Rust
`Result<String, &str>` that may also panic (the source calls `.unwrap()`
in two places) is modelled by `RustResult` with an explicit `panicked`
outcome.
-/

namespace VelasAddress

/-! ## 32-bit word arithmetic -/

/-- Truncation to a 32-bit word. -/
def w32 (n : Nat) : Nat := n % 4294967296

/-- Right rotation of a 32-bit word (`0 < k < 32`, `x < 2^32`). -/
def rotw (k x : Nat) : Nat := w32 ((x >>> k) ||| (x <<< (32 - k)))

/-- SHA-256 `Ch` function; `x ^^^ 0xFFFFFFFF` is 32-bit complement. -/
def shaCh (x y z : Nat) : Nat := (x &&& y) ^^^ ((x ^^^ 4294967295) &&& z)

/-- SHA-256 `Maj` function. -/
def shaMaj (x y z : Nat) : Nat := (x &&& y) ^^^ (x &&& z) ^^^ (y &&& z)

/-- SHA-256 big sigma 0. -/
def bigSig0 (x : Nat) : Nat := rotw 2 x ^^^ rotw 13 x ^^^ rotw 22 x

/-- SHA-256 big sigma 1. -/
def bigSig1 (x : Nat) : Nat := rotw 6 x ^^^ rotw 11 x ^^^ rotw 25 x

/-- SHA-256 small sigma 0. -/
def smallSig0 (x : Nat) : Nat := rotw 7 x ^^^ rotw 18 x ^^^ (x >>> 3)

/-- SHA-256 small sigma 1. -/
def smallSig1 (x : Nat) : Nat := rotw 17 x ^^^ rotw 19 x ^^^ (x >>> 10)

/-! ## SHA-256 (FIPS 180-4) -/

/-- The 64 SHA-256 round constants. -/
def shaK : List Nat :=
  [1116352408, 1899447441, 3049323471, 3921009573, 961987163,
   1508970993, 2453635748, 2870763221, 3624381080, 310598401,
   607225278, 1426881987, 1925078388, 2162078206, 2614888103,
   3248222580, 3835390401, 4022224774, 264347078, 604807628,
   770255983, 1249150122, 1555081692, 1996064986, 2554220882,
   2821834349, 2952996808, 3210313671, 3336571891, 3584528711,
   113926993, 338241895, 666307205, 773529912, 1294757372,
   1396182291, 1695183700, 1986661051, 2177026350, 2456956037,
   2730485921, 2820302411, 3259730800, 3345764771, 3516065817,
   3600352804, 4094571909, 275423344, 430227734, 506948616,
   659060556, 883997877, 958139571, 1322822218, 1537002063,
   1747873779, 1955562222, 2024104815, 2227730452, 2361852424,
   2428436474, 2756734187, 3204031479, 3329325298]

/-- The SHA-256 initial hash state. -/
def shaH0 : List Nat :=
  [1779033703, 3144134277, 1013904242, 2773480762, 1359893119,
   2600822924, 528734635, 1541459225]

/-- Big-endian value of a byte list (also used for 4-byte words). -/
def beBytesToNat (bs : List Nat) : Nat := bs.foldl (fun a b => a * 256 + b) 0

/-- Split a byte list into big-endian 32-bit words (fuel-driven so the
kernel can evaluate it; call with fuel 16 on a 64-byte block). -/
def toWords : Nat → List Nat → List Nat
  | 0, _ => []
  | _ + 1, [] => []
  | fuel + 1, b :: bs =>
      beBytesToNat ((b :: bs).take 4) :: toWords fuel ((b :: bs).drop 4)

/-- Message-schedule extension, `w[i] = σ₁(w[i-2]) + w[i-7] + σ₀(w[i-15]) +
w[i-16]`, produced from a sliding window of the last 16 words held most
recent first (this keeps kernel evaluation linear). -/
def extendW : Nat → List Nat → List Nat
  | 0, _ => []
  | fuel + 1, rev16 =>
    match rev16 with
    | [w1, w2, w3, w4, w5, w6, w7, w8, w9, w10, w11, w12, w13, w14, w15, w16] =>
      let w := w32 (w16 + smallSig0 w15 + w7 + smallSig1 w2)
      w :: extendW fuel [w, w1, w2, w3, w4, w5, w6, w7, w8, w9, w10, w11, w12, w13, w14, w15]
    | _ => []

/-- One SHA-256 round on the eight-word state. -/
def shaRound : List Nat → Nat → Nat → List Nat
  | [a, b, c, d, e, f, g, h], k, w =>
    let t1 := w32 (h + bigSig1 e + shaCh e f g + k + w)
    let t2 := w32 (bigSig0 a + shaMaj a b c)
    [w32 (t1 + t2), a, b, c, w32 (d + t1), e, f, g]
  | st, _, _ => st

/-- Compress one 64-byte block into the state. -/
def compressBlock (st block : List Nat) : List Nat :=
  let w16 := toWords 16 block
  let ws := w16 ++ extendW 48 w16.reverse
  let st2 := (shaK.zip ws).foldl (fun s kw => shaRound s kw.1 kw.2) st
  List.zipWith (fun x y => w32 (x + y)) st st2

/-- The 8-byte big-endian length field of the SHA-256 padding. -/
def be64 (n : Nat) : List Nat :=
  [(n >>> 56) &&& 255, (n >>> 48) &&& 255, (n >>> 40) &&& 255, (n >>> 32) &&& 255,
   (n >>> 24) &&& 255, (n >>> 16) &&& 255, (n >>> 8) &&& 255, n &&& 255]

/-- SHA-256 message padding: `0x80`, zeros to 56 mod 64, 64-bit bit length. -/
def sha256pad (msg : List Nat) : List Nat :=
  msg ++ 128 :: (List.replicate ((119 - msg.length % 64) % 64) 0 ++ be64 (8 * msg.length))

/-- Split the padded message into 64-byte blocks (fuel-driven). -/
def toBlocks : Nat → List Nat → List (List Nat)
  | 0, _ => []
  | _ + 1, [] => []
  | fuel + 1, b :: bs => (b :: bs).take 64 :: toBlocks fuel ((b :: bs).drop 64)

/-- A 32-bit word as four big-endian bytes. -/
def wordBe4 (w : Nat) : List Nat :=
  [(w >>> 24) &&& 255, (w >>> 16) &&& 255, (w >>> 8) &&& 255, w &&& 255]

/-- SHA-256 digest (32 bytes) of a byte list. -/
def sha256 (msg : List Nat) : List Nat :=
  let p := sha256pad msg
  ((toBlocks p.length p).foldl compressBlock shaH0).flatMap wordBe4

/-! ## `hex` crate: encode / decode -/

/-- Index of a character in a list, front first (used for digit lookup). -/
def lookupIdx (c : Char) : List Char → Option Nat
  | [] => none
  | a :: rest => if a = c then some 0 else (lookupIdx c rest).map (· + 1)

/-- The sixteen lowercase hex digits. -/
def lowerHexChars : List Char := "0123456789abcdef".toList

/-- The six uppercase hex letters. -/
def upperHexChars : List Char := "ABCDEF".toList

/-- Lowercase hex character of a value `< 16`. -/
def hexCharLower (v : Nat) : Char := lowerHexChars.getD v '?'

/-- Value of a hex digit, either case (`hex` crate digit set). -/
def hexVal (c : Char) : Option Nat :=
  match lookupIdx c lowerHexChars with
  | some v => some v
  | none => (lookupIdx c upperHexChars).map (· + 10)

/-- `hex::encode`: each byte as two lowercase hex characters. -/
def hexEncodeChars (bs : List Nat) : List Char :=
  bs.flatMap (fun b => [hexCharLower (b / 16), hexCharLower (b % 16)])

/-- `hex::decode`: fails on odd length or a non-hex character. -/
def hexDecodeChars : List Char → Option (List Nat)
  | [] => some []
  | [_] => none
  | c1 :: c2 :: rest =>
    match hexVal c1, hexVal c2, hexDecodeChars rest with
    | some v1, some v2, some bs => some ((v1 * 16 + v2) :: bs)
    | _, _, _ => none

/-! ## `basex_rs` with the `BITCOIN` alphabet (port of JS `base-x`) -/

/-- The Bitcoin base-58 alphabet. -/
def alphabetChars : List Char :=
  "123456789ABCDEFGHJKLMNPQRSTUVWXYZabcdefghijkmnopqrstuvwxyz".toList

/-- Character of a base-58 digit value `< 58`. -/
def b58Char (v : Nat) : Char := alphabetChars.getD v '?'

/-- Value of a base-58 character, `none` outside the alphabet. -/
def b58Val (c : Char) : Option Nat := lookupIdx c alphabetChars

/-- Number of leading occurrences of `x`. -/
def leadCount [DecidableEq α] (x : α) : List α → Nat
  | [] => 0
  | a :: rest => if a = x then leadCount x rest + 1 else 0

/-- Little-endian base-`b` digits, fuel-driven (`fuel ≥ n` suffices). -/
def toDigitsLE (b : Nat) : Nat → Nat → List Nat
  | 0, _ => []
  | fuel + 1, n => if n = 0 then [] else n % b :: toDigitsLE b fuel (n / b)

/-- Minimal big-endian byte representation of `n` (empty for 0). -/
def natToBeBytes (n : Nat) : List Nat := (toDigitsLE 256 n n).reverse

/-- Canonical base-58 digit string of `n` (empty for 0). -/
def natToB58Chars (n : Nat) : List Char := ((toDigitsLE 58 n n).reverse).map b58Char

/-- Base-58 value of a digit-value list, big-endian. -/
def b58ToNat (ds : List Nat) : Nat := ds.foldl (fun a d => a * 58 + d) 0

/-- `BaseX::new(BITCOIN).encode`: leading zero bytes become `'1'`s, the rest
is the canonical base-58 rendering of the big-endian value. -/
def baseXEncode (bs : List Nat) : List Char :=
  List.replicate (leadCount 0 bs) '1' ++ natToB58Chars (beBytesToNat bs)

/-- The decode loop's digit lookup: `none` at the first character outside
the alphabet. -/
def mapB58Vals : List Char → Option (List Nat)
  | [] => some []
  | c :: rest =>
    match b58Val c, mapB58Vals rest with
    | some v, some vs => some (v :: vs)
    | _, _ => none

/-- `BaseX::new(BITCOIN).decode`: `none` on a character outside the
alphabet; otherwise leading `'1'`s become zero bytes, prepended to the
minimal big-endian bytes of the base-58 value. -/
def baseXDecode (s : List Char) : Option (List Nat) :=
  match mapB58Vals s with
  | none => none
  | some ds => some (List.replicate (leadCount '1' s) 0 ++ natToBeBytes (b58ToNat ds))

/-! ## Strings, bytes, lowercasing -/

/-- UTF-8 bytes of one character. -/
def utf8EncodeChar (c : Char) : List Nat :=
  let n := c.toNat
  if n < 128 then [n]
  else if n < 2048 then [192 ||| (n >>> 6), 128 ||| (n &&& 63)]
  else if n < 65536 then
    [224 ||| (n >>> 12), 128 ||| ((n >>> 6) &&& 63), 128 ||| (n &&& 63)]
  else
    [240 ||| (n >>> 18), 128 ||| ((n >>> 12) &&& 63), 128 ||| ((n >>> 6) &&& 63),
     128 ||| (n &&& 63)]

/-- `str::as_bytes`: the UTF-8 bytes of a character list. -/
def strBytes (s : List Char) : List Nat := s.flatMap utf8EncodeChar

/-- ASCII case mapping of one character, as performed by
`str::to_lowercase` on the ASCII inputs that occur in every claim
(Unicode special-case mappings are never exercised by hex strings). -/
def asciiLower (c : Char) : Char :=
  if 'A' ≤ c ∧ c ≤ 'Z' then Char.ofNat (c.toNat + 32) else c

/-- `hash_sha256` from the source: the digest of `bytes` printed as 64
lowercase hex characters (`sha256::Hash` displays in forward order). -/
def hash_sha256 (bytes : List Nat) : List Char := hexEncodeChars (sha256 bytes)

/-! ## The two conversion functions -/

/-- Outcome of a Rust `Result<String, &str>`-returning call that may also
panic (`.unwrap()` on an error value). -/
inductive RustResult where
  | ok (val : String)
  | err (msg : String)
  | panicked
  deriving DecidableEq, Repr

/-- Lines 57–63 of the source: base-58 encode the raw bytes and left-pad
with `'1'` to 33 characters when shorter. -/
def padEncode (bytes : List Nat) : List Char :=
  let e := baseXEncode bytes
  if e.length < 33 then List.replicate (33 - e.length) '1' ++ e else e

/-- `eth_to_vlx` (lines 33–64).  `address.get(2..)` is always `Some` once
the string starts with the two ASCII characters `"0x"`, so it is the plain
2-character drop; `hash_big.get(0..8)` keeps its length guard.  The
`hex::decode(..).unwrap()` panics on a malformed hex string. -/
def eth_to_vlx (address : String) : RustResult :=
  let cs := address.toList
  if cs = [] then .err "Invalid address"
  else if ¬ cs.take 2 = ['0', 'x'] then .err "Invalid address"
  else
    let clear_addr := (cs.drop 2).map asciiLower
    let hash_big := hash_sha256 (strBytes (hash_sha256 (strBytes clear_addr)))
    if hash_big.length < 8 then .err "Invalid address"
    else
      let checksum := hash_big.take 8
      let long_address := clear_addr ++ checksum
      match hexDecodeChars long_address with
      | none => .panicked
      | some bytes => .ok (String.mk ('V' :: padEncode bytes))

/-- Lines 106–116 of the source: padding recovery on the regex body
capture — a body longer than 40 characters is accepted only when its
excess leading characters are all `'0'`, which are then stripped;
`match_addr.get(len..)` is always `Some` (`len ≤` the length, ASCII), so
it is the plain drop.  `none` is the `Err("Invalid address")` path. -/
def vlxStrip (caps1 : List Char) : Option (List Char) :=
  if caps1.length > 40 then
    let len := caps1.length - 40
    if caps1.take len = List.replicate len '0' then some (caps1.drop len)
    else none
  else some caps1

/-- Lines 118–128 of the source: recompute the double-SHA-256 checksum of
the (post-strip) body and compare it with the embedded one. -/
def vlxVerify (match_addr caps2 : List Char) : RustResult :=
  let hash_big := hash_sha256 (strBytes (hash_sha256 (strBytes match_addr)))
  if hash_big.length < 8 then .err "Invalid address"
  else
    let checksum := hash_big.take 8
    if ¬ checksum = caps2 then .err "Invalid checksum"
    else .ok (String.mk ('0' :: 'x' :: match_addr))

/-- Lines 104–128 of the source: padding recovery, then checksum check. -/
def vlxCheckBody (caps1 caps2 : List Char) : RustResult :=
  match vlxStrip caps1 with
  | none => .err "Invalid address"
  | some match_addr => vlxVerify match_addr caps2

/-- `vlx_to_eth` (lines 75–129).  The string fed to the regex
`([0-9abcdef]+)([0-9abcdef]{8})` is `hex::encode` output, so every
character is in the class and the leftmost greedy match exists exactly
when the string has at least 9 characters, capturing all but the last 8,
then the last 8; `re.captures(..).unwrap()` panics when it is shorter
(and then `caps.len()` is always 3, so that guard is dead). -/
def vlx_to_eth (address : String) : RustResult :=
  let cs := address.toList
  if cs = [] then .err "Invalid address"
  else if ¬ cs.take 1 = ['V'] then .err "Invalid address"
  else
    let clear_addr := cs.drop 1
    match baseXDecode clear_addr with
    | none => .err "Invalid address"
    | some decode_addr =>
      let hx := hexEncodeChars decode_addr
      if hx.length < 9 then .panicked
      else vlxCheckBody (hx.take (hx.length - 8)) (hx.drop (hx.length - 8))

/-! ## Statement-support definitions -/

/-- The 8-hex-character checksum both functions compute: the first 8
characters of `hash_sha256(hash_sha256(s.as_bytes()).as_bytes())`. -/
def checksumOf (s : List Char) : List Char :=
  (hash_sha256 (strBytes (hash_sha256 (strBytes s)))).take 8

/-- Whether a character is a hexadecimal digit of the `hex` crate. -/
def isHexChar (c : Char) : Bool := (hexVal c).isSome

/-- The body capture of the decoder's regex on the hex string of `bs`:
everything before the trailing 8 characters. -/
def vlxBody (bs : List Nat) : List Char :=
  (hexEncodeChars bs).take ((hexEncodeChars bs).length - 8)

/-- The checksum capture of the decoder's regex on the hex string of
`bs`: the trailing 8 characters. -/
def vlxCaps2 (bs : List Nat) : List Char :=
  (hexEncodeChars bs).drop ((hexEncodeChars bs).length - 8)

/-- `[] `, or a first element different from `x` (shape of a list whose
leading run of `x` has been removed). -/
def headNe (x : α) : List α → Prop
  | [] => True
  | a :: _ => a ≠ x

/-- The body of the repository's canonical test vector
`0x32Be343B94f860124dC4fEe278FDCBD38C102D88`, lowercased. -/
def canonicalBody : List Char := "32be343b94f860124dc4fee278fdcbd38c102d88".toList

/-- The embedded checksum of the canonical test vector (first 8 hex
characters of the double SHA-256 of `canonicalBody`). -/
def canonicalCk : List Char := "6db32c74".toList

/-- The canonical body with position `i` replaced by hex digit `v`,
re-encoded with the *original* checksum `canonicalCk` (the encoded
address whose decode must report a checksum mismatch). -/
def alteredAddr (i v : Nat) : String :=
  String.mk ('V' ::
    padEncode ((hexDecodeChars (canonicalBody.set i (hexCharLower v) ++ canonicalCk)).getD []))

/-- The hex digit one past the canonical body's digit at position `i`
(a canonical single-character alteration). -/
def digitSucc (i : Nat) : Nat := ((hexVal (canonicalBody.getD i '0')).getD 0 + 1) % 16

/-- The base-58 part of the canonical test vector address. -/
def c4Rest : List Char := "5dJeCa7bmkqmZF53TqjRbnB4fG6hxuu4f".toList

/-- The 24 raw bytes (body plus checksum) of the canonical test vector. -/
def c4Bytes : List Nat :=
  [50, 190, 52, 59, 148, 248, 96, 18, 77, 196, 254, 226, 120, 253, 203, 211,
   140, 16, 45, 136, 109, 179, 44, 116]

/-- Base-58 part of an address decoding to 25 bytes `0x01` then 24 zero
bytes: its 42-character body starts with `01`, an invalid padding
excess. -/
def c6BadRest : List Char := "QLbz7JHiBTspS962RLKV8GndWFwiEaqKM".toList

/-- The 25 decoded bytes of `c6BadRest`. -/
def c6BadBytes : List Nat := 1 :: List.replicate 24 0

/-- Base-58 part of an address decoding to 20 `0xff` bytes followed by
the wrong embedded checksum `00000000`. -/
def c3MismatchRest : List Char := "QLbz7JHiBTspS962RLKV8GndWFwbh41B5".toList

/-- The 24 decoded bytes of `c3MismatchRest`. -/
def c3MismatchBytes : List Nat := List.replicate 20 255 ++ [0, 0, 0, 0]

/-! ## Digit-lookup lemmas -/

theorem lookupIdx_lt {c : Char} : ∀ {l : List Char} {v : Nat},
    lookupIdx c l = some v → v < l.length := by
  intro l
  induction l with
  | nil => intro v h; simp [lookupIdx] at h
  | cons a rest ih =>
    intro v h
    by_cases hac : a = c
    · simp [lookupIdx, hac] at h
      simp only [List.length_cons]
      omega
    · simp only [lookupIdx, if_neg hac, Option.map_eq_some'] at h
      obtain ⟨w, hw, rfl⟩ := h
      have := ih hw
      simp only [List.length_cons]
      omega

theorem lookupIdx_getD {c d : Char} : ∀ {l : List Char} {v : Nat},
    lookupIdx c l = some v → l.getD v d = c := by
  intro l
  induction l with
  | nil => intro v h; simp [lookupIdx] at h
  | cons a rest ih =>
    intro v h
    by_cases hac : a = c
    · simp [lookupIdx, hac] at h
      simp [← h, hac]
    · simp only [lookupIdx, if_neg hac, Option.map_eq_some'] at h
      obtain ⟨w, hw, rfl⟩ := h
      simpa using ih hw

theorem b58Val_lt {c : Char} {v : Nat} (h : b58Val c = some v) : v < 58 := by
  have hlen : alphabetChars.length = 58 := rfl
  have := lookupIdx_lt (l := alphabetChars) h
  omega

theorem b58Char_of_b58Val {c : Char} {v : Nat} (h : b58Val c = some v) : b58Char v = c :=
  lookupIdx_getD h

theorem b58Val_b58Char : ∀ v, v < 58 → b58Val (b58Char v) = some v := by decide

theorem b58Char_ne_one : ∀ v, v < 58 → v ≠ 0 → b58Char v ≠ '1' := by decide

theorem b58Val_one : b58Val '1' = some 0 := by decide

theorem hexVal_hexCharLower : ∀ v, v < 16 → hexVal (hexCharLower v) = some v := by decide

theorem asciiLower_hexCharLower : ∀ v, v < 16 → asciiLower (hexCharLower v) = hexCharLower v := by
  decide

/-- Every accepted hex digit has value below 16, lowercases to the
canonical lowercase digit of the same value, and that digit is again
accepted with the same value. -/
theorem hexVal_spec {c : Char} {v : Nat} (h : hexVal c = some v) :
    v < 16 ∧ asciiLower c = hexCharLower v ∧ hexVal (hexCharLower v) = some v := by
  have hlow : ∀ w, w < 16 →
      asciiLower (hexCharLower w) = hexCharLower w ∧ hexVal (hexCharLower w) = some w := by decide
  have hup : ∀ w, w < 6 → asciiLower (upperHexChars.getD w '?') = hexCharLower (w + 10) ∧
      hexVal (hexCharLower (w + 10)) = some (w + 10) := by decide
  unfold hexVal at h
  cases hl : lookupIdx c lowerHexChars with
  | some w =>
    rw [hl] at h
    cases h
    have hw : v < 16 := by
      have hlen : lowerHexChars.length = 16 := rfl
      have := lookupIdx_lt (l := lowerHexChars) hl
      omega
    have hc : c = hexCharLower v := (lookupIdx_getD (d := '?') hl).symm
    subst hc
    exact ⟨hw, (hlow v hw).1, (hlow v hw).2⟩
  | none =>
    rw [hl] at h
    simp only [Option.map_eq_some'] at h
    obtain ⟨w, hw, rfl⟩ := h
    have hwlt : w < 6 := by
      have hlen : upperHexChars.length = 6 := rfl
      have := lookupIdx_lt (l := upperHexChars) hw
      omega
    have hc : c = upperHexChars.getD w '?' := (lookupIdx_getD (d := '?') hw).symm
    subst hc
    exact ⟨by omega, (hup w hwlt).1, (hup w hwlt).2⟩

theorem hexVal_lt {c : Char} {v : Nat} (h : hexVal c = some v) : v < 16 :=
  (hexVal_spec h).1

/-! ## Hex codec lemmas -/

theorem hexEncode_nil : hexEncodeChars [] = [] := rfl

theorem hexEncode_cons (b : Nat) (bs : List Nat) :
    hexEncodeChars (b :: bs) =
      hexCharLower (b / 16) :: hexCharLower (b % 16) :: hexEncodeChars bs := rfl

theorem hexEncode_append (xs ys : List Nat) :
    hexEncodeChars (xs ++ ys) = hexEncodeChars xs ++ hexEncodeChars ys := by
  simp [hexEncodeChars]

theorem hexEncode_length (bs : List Nat) : (hexEncodeChars bs).length = 2 * bs.length := by
  induction bs with
  | nil => rfl
  | cons b t ih => rw [hexEncode_cons]; simp only [List.length_cons, ih]; omega

theorem hexEncode_replicate_zero (n : Nat) :
    hexEncodeChars (List.replicate n 0) = List.replicate (2 * n) '0' := by
  induction n with
  | zero => rfl
  | succ m ih =>
    rw [List.replicate_succ, hexEncode_cons]
    have : 2 * (m + 1) = (2 * m) + 1 + 1 := by omega
    rw [this, List.replicate_succ, List.replicate_succ, ih]
    rfl

/-- Each character emitted by `hex::encode` is a canonical lowercase hex
digit. -/
theorem hexEncode_mem {bs : List Nat} (hb : ∀ b ∈ bs, b < 256) {c : Char}
    (hc : c ∈ hexEncodeChars bs) : ∃ v, v < 16 ∧ c = hexCharLower v := by
  induction bs with
  | nil => simp [hexEncodeChars] at hc
  | cons b t ih =>
    rw [hexEncode_cons] at hc
    have hblt : b < 256 := hb b (by simp)
    simp only [List.mem_cons] at hc
    rcases hc with hc | hc | hc
    · exact ⟨b / 16, by omega, hc⟩
    · exact ⟨b % 16, by omega, hc⟩
    · exact ih (fun x hx => hb x (by simp [hx])) hc

theorem hexDecode_encode : ∀ (bs : List Nat), (∀ b ∈ bs, b < 256) →
    hexDecodeChars (hexEncodeChars bs) = some bs := by
  intro bs
  induction bs with
  | nil => intro _; rfl
  | cons b t ih =>
    intro hb
    have hblt : b < 256 := hb b (by simp)
    rw [hexEncode_cons]
    simp only [hexDecodeChars, hexVal_hexCharLower (b / 16) (by omega : b / 16 < 16),
      hexVal_hexCharLower (b % 16) (by omega : b % 16 < 16),
      ih (fun x hx => hb x (by simp [hx]))]
    have : b / 16 * 16 + b % 16 = b := by omega
    rw [this]

/-- A string of hex digits of even length decodes; the bytes are below
256 and re-encode to the lowercased input. -/
theorem hexDecode_spec : ∀ (cs : List Char), cs.length % 2 = 0 →
    (∀ c ∈ cs, ∃ v, hexVal c = some v) →
    ∃ bs, hexDecodeChars cs = some bs ∧ (∀ b ∈ bs, b < 256) ∧
      hexEncodeChars bs = cs.map asciiLower ∧ bs.length * 2 = cs.length
  | [], _, _ => ⟨[], rfl, by simp, by simp [hexEncodeChars], by simp⟩
  | [c], h, _ => absurd h (by simp)
  | c1 :: c2 :: rest, h, hmem => by
    obtain ⟨v1, hv1⟩ := hmem c1 (by simp)
    obtain ⟨v2, hv2⟩ := hmem c2 (by simp)
    obtain ⟨bs, hdec, hlt, henc, hlen⟩ :=
      hexDecode_spec rest (by simp only [List.length_cons] at h; omega)
        (fun c hc => hmem c (by simp [hc]))
    obtain ⟨hlt1, hlow1, -⟩ := hexVal_spec hv1
    obtain ⟨hlt2, hlow2, -⟩ := hexVal_spec hv2
    refine ⟨(v1 * 16 + v2) :: bs, ?_, ?_, ?_, ?_⟩
    · simp only [hexDecodeChars]
      rw [hv1, hv2, hdec]
    · intro b hb
      simp only [List.mem_cons] at hb
      rcases hb with hb | hb
      · omega
      · exact hlt _ hb
    · rw [hexEncode_cons]
      have e1 : (v1 * 16 + v2) / 16 = v1 := by omega
      have e2 : (v1 * 16 + v2) % 16 = v2 := by omega
      rw [e1, e2, henc]
      simp [hlow1, hlow2]
    · simp only [List.length_cons]
      omega

/-! ## Positional-notation lemmas -/

theorem toDigitsLE_eq {b : Nat} (hb : 2 ≤ b) :
    ∀ (fuel n : Nat), n ≤ fuel → toDigitsLE b fuel n = Nat.digits b n := by
  intro fuel
  induction fuel with
  | zero =>
    intro n h
    have : n = 0 := by omega
    subst this
    simp [toDigitsLE]
  | succ f ih =>
    intro n h
    by_cases hn : n = 0
    · subst hn; simp [toDigitsLE]
    · rw [toDigitsLE, if_neg hn,
        Nat.digits_def' (by omega : 1 < b) (Nat.pos_of_ne_zero hn)]
      have hdiv : n / b < n := Nat.div_lt_self (Nat.pos_of_ne_zero hn) hb
      rw [ih (n / b) (by omega)]

theorem natToBeBytes_eq (n : Nat) : natToBeBytes n = (Nat.digits 256 n).reverse := by
  unfold natToBeBytes
  rw [toDigitsLE_eq (by omega) n n le_rfl]

theorem natToB58Chars_eq (n : Nat) :
    natToB58Chars n = ((Nat.digits 58 n).reverse).map b58Char := by
  unfold natToB58Chars
  rw [toDigitsLE_eq (by omega) n n le_rfl]

theorem foldl_base_aux (B : Nat) :
    ∀ (l : List Nat) (acc : Nat),
      l.foldl (fun a d => a * B + d) acc = acc * B ^ l.length + Nat.ofDigits B l.reverse := by
  intro l
  induction l with
  | nil => intro acc; simp [Nat.ofDigits_nil]
  | cons d t ih =>
    intro acc
    simp only [List.foldl_cons, List.reverse_cons, List.length_cons]
    rw [ih (acc * B + d), Nat.ofDigits_append, Nat.ofDigits_singleton,
      List.length_reverse]
    ring

theorem beBytesToNat_eq (l : List Nat) : beBytesToNat l = Nat.ofDigits 256 l.reverse := by
  show l.foldl (fun a d => a * 256 + d) 0 = _
  rw [foldl_base_aux 256 l 0]
  simp

theorem b58ToNat_eq (l : List Nat) : b58ToNat l = Nat.ofDigits 58 l.reverse := by
  show l.foldl (fun a d => a * 58 + d) 0 = _
  rw [foldl_base_aux 58 l 0]
  simp

theorem foldl_base_replicate_zero (B : Nat) :
    ∀ (k : Nat) (l : List Nat),
      (List.replicate k 0 ++ l).foldl (fun a d => a * B + d) 0 =
        l.foldl (fun a d => a * B + d) 0 := by
  intro k
  induction k with
  | zero => intro l; rfl
  | succ m ih =>
    intro l
    rw [List.replicate_succ]
    simpa using ih l

theorem beBytesToNat_replicate_zero (k : Nat) (l : List Nat) :
    beBytesToNat (List.replicate k 0 ++ l) = beBytesToNat l :=
  foldl_base_replicate_zero 256 k l

theorem b58ToNat_replicate_zero (k : Nat) (l : List Nat) :
    b58ToNat (List.replicate k 0 ++ l) = b58ToNat l :=
  foldl_base_replicate_zero 58 k l

/-- The big-endian digits of `n ≠ 0` reversed expose a nonzero leading
digit below the base. -/
theorem reverse_digits_head {b n : Nat} (hb : 1 < b) (hn : n ≠ 0) :
    ∃ d t, (Nat.digits b n).reverse = d :: t ∧ d ≠ 0 ∧ d < b := by
  have hne : Nat.digits b n ≠ [] := Nat.digits_ne_nil_iff_ne_zero.mpr hn
  have hsplit := List.dropLast_append_getLast hne
  refine ⟨(Nat.digits b n).getLast hne, (Nat.digits b n).dropLast.reverse, ?_, ?_, ?_⟩
  · conv_lhs => rw [← hsplit]
    rw [List.reverse_append]
    rfl
  · exact Nat.getLast_digit_ne_zero b hn
  · exact Nat.digits_lt_base hb (List.getLast_mem hne)

/-! ## Leading-run lemmas -/

theorem leadCount_le [DecidableEq α] (x : α) : ∀ l : List α, leadCount x l ≤ l.length := by
  intro l
  induction l with
  | nil => simp [leadCount]
  | cons a t ih =>
    by_cases hax : a = x
    · simp only [leadCount, if_pos hax, List.length_cons]
      omega
    · simp [leadCount, hax]

theorem leadCount_replicate_append [DecidableEq α] (x : α) :
    ∀ (k : Nat) (t : List α), headNe x t → leadCount x (List.replicate k x ++ t) = k := by
  intro k
  induction k with
  | zero =>
    intro t ht
    cases t with
    | nil => rfl
    | cons a r => simpa [leadCount] using fun h => absurd h ht
  | succ m ih =>
    intro t ht
    rw [List.replicate_succ, List.cons_append]
    show (if x = x then leadCount x (List.replicate m x ++ t) + 1 else 0) = m + 1
    rw [if_pos rfl, ih t ht]

theorem leadCount_replicate_append_add [DecidableEq α] (x : α) :
    ∀ (k : Nat) (l : List α), leadCount x (List.replicate k x ++ l) = k + leadCount x l := by
  intro k
  induction k with
  | zero => intro l; simp
  | succ m ih =>
    intro l
    rw [List.replicate_succ, List.cons_append]
    show (if x = x then leadCount x (List.replicate m x ++ l) + 1 else 0) = m + 1 + leadCount x l
    rw [if_pos rfl, ih l]
    omega

/-- Every list is its leading run of `x` followed by a remainder that
does not start with `x`. -/
theorem leadCount_decompose [DecidableEq α] (x : α) :
    ∀ l : List α, l = List.replicate (leadCount x l) x ++ l.drop (leadCount x l) ∧
      headNe x (l.drop (leadCount x l)) := by
  intro l
  induction l with
  | nil => exact ⟨rfl, trivial⟩
  | cons a t ih =>
    by_cases hax : a = x
    · subst hax
      have hlc : leadCount a (a :: t) = leadCount a t + 1 := by
        show (if a = a then leadCount a t + 1 else 0) = leadCount a t + 1
        rw [if_pos rfl]
      rw [hlc]
      constructor
      · rw [List.replicate_succ, List.drop_succ_cons, List.cons_append]
        exact congrArg (fun l => a :: l) ih.1
      · rw [List.drop_succ_cons]
        exact ih.2
    · have hlc : leadCount x (a :: t) = 0 := by
        show (if a = x then leadCount x t + 1 else 0) = 0
        rw [if_neg hax]
      rw [hlc]
      exact ⟨by simp, hax⟩

/-! ## Base-58 codec round trips -/
theorem mapB58Vals_cons (c : Char) (r : List Char) :
    mapB58Vals (c :: r) =
      match b58Val c, mapB58Vals r with
      | some v, some vs => some (v :: vs)
      | _, _ => none := rfl

theorem mapB58Vals_append {u v : List Char} {du dv : List Nat}
    (hu : mapB58Vals u = some du) (hv : mapB58Vals v = some dv) :
    mapB58Vals (u ++ v) = some (du ++ dv) := by
  induction u generalizing du with
  | nil =>
    have hu' : some ([] : List Nat) = some du := hu
    cases hu'
    simpa using hv
  | cons c r ih =>
    rw [mapB58Vals_cons] at hu
    cases hc : b58Val c with
    | none =>
      rw [hc] at hu
      cases hr : mapB58Vals r with
      | none =>
        rw [hr] at hu
        have hu' : (none : Option (List Nat)) = some du := hu
        simp at hu'
      | some dr =>
        rw [hr] at hu
        have hu' : (none : Option (List Nat)) = some du := hu
        simp at hu'
    | some w =>
      rw [hc] at hu
      cases hr : mapB58Vals r with
      | none =>
        rw [hr] at hu
        have hu' : (none : Option (List Nat)) = some du := hu
        simp at hu'
      | some dr =>
        rw [hr] at hu
        have hu' : some (w :: dr) = some du := hu
        cases hu'
        rw [List.cons_append, mapB58Vals_cons, hc, ih hr]
        rfl

theorem mapB58Vals_replicate_one (k : Nat) :
    mapB58Vals (List.replicate k '1') = some (List.replicate k 0) := by
  induction k with
  | zero => rfl
  | succ m ih =>
    rw [List.replicate_succ, List.replicate_succ, mapB58Vals_cons, b58Val_one, ih]

theorem mapB58Vals_map_b58Char {ds : List Nat} (hd : ∀ d ∈ ds, d < 58) :
    mapB58Vals (ds.map b58Char) = some ds := by
  induction ds with
  | nil => rfl
  | cons d t ih =>
    rw [List.map_cons, mapB58Vals_cons, b58Val_b58Char d (hd d (by simp)),
      ih (fun x hx => hd x (by simp [hx]))]

theorem mapB58Vals_inv : ∀ {s : List Char} {ds : List Nat}, mapB58Vals s = some ds →
    s = ds.map b58Char ∧ ∀ d ∈ ds, d < 58 := by
  intro s
  induction s with
  | nil =>
    intro ds h
    have h' : some ([] : List Nat) = some ds := h
    cases h'
    simp
  | cons c r ih =>
    intro ds h
    rw [mapB58Vals_cons] at h
    cases hc : b58Val c with
    | none =>
      rw [hc] at h
      cases hr : mapB58Vals r with
      | none =>
        rw [hr] at h
        have h' : (none : Option (List Nat)) = some ds := h
        simp at h'
      | some dr =>
        rw [hr] at h
        have h' : (none : Option (List Nat)) = some ds := h
        simp at h'
    | some w =>
      rw [hc] at h
      cases hr : mapB58Vals r with
      | none =>
        rw [hr] at h
        have h' : (none : Option (List Nat)) = some ds := h
        simp at h'
      | some dr =>
        rw [hr] at h
        have h' : some (w :: dr) = some ds := h
        cases h'
        obtain ⟨hmap, hlt⟩ := ih hr
        refine ⟨?_, ?_⟩
        · rw [List.map_cons, b58Char_of_b58Val hc, ← hmap]
        · intro d hd
          simp only [List.mem_cons] at hd
          rcases hd with rfl | hd
          · exact b58Val_lt hc
          · exact hlt d hd

/-- The canonical base-58 digit string of a value does not start with
`'1'`, and its digit values are the reversed digits of the value. -/
theorem natToB58Chars_spec (n : Nat) :
    headNe '1' (natToB58Chars n) ∧
      mapB58Vals (natToB58Chars n) = some ((Nat.digits 58 n).reverse) := by
  by_cases hn : n = 0
  · subst hn
    refine ⟨trivial, ?_⟩
    rw [Nat.digits_zero]
    rfl
  · obtain ⟨d, t, hdt, hd0, hdlt⟩ := reverse_digits_head (by omega : (1:Nat) < 58) hn
    have hmem : ∀ x ∈ (Nat.digits 58 n).reverse, x < 58 := by
      intro x hx
      exact Nat.digits_lt_base (by omega) (List.mem_reverse.mp hx)
    constructor
    · rw [natToB58Chars_eq, hdt]
      exact b58Char_ne_one d hdlt hd0
    · rw [natToB58Chars_eq]
      exact mapB58Vals_map_b58Char hmem

/-- Encoding prepends one `'1'` per prepended zero byte. -/
theorem baseXEncode_replicate_zero (p : Nat) (bs : List Nat) :
    baseXEncode (List.replicate p 0 ++ bs) = List.replicate p '1' ++ baseXEncode bs := by
  unfold baseXEncode
  rw [leadCount_replicate_append_add, beBytesToNat_replicate_zero, List.replicate_add,
    List.append_assoc]

/-- The decoder on a string whose digits all resolve. -/
theorem baseXDecode_eq_some {s : List Char} {ds : List Nat} (h : mapB58Vals s = some ds) :
    baseXDecode s =
      some (List.replicate (leadCount '1' s) 0 ++ natToBeBytes (b58ToNat ds)) := by
  unfold baseXDecode
  rw [h]

/-- The decoder on a string containing a character outside the alphabet. -/
theorem baseXDecode_eq_none {s : List Char} (h : mapB58Vals s = none) :
    baseXDecode s = none := by
  unfold baseXDecode
  rw [h]

/-- `decode (encode bs) = bs` for any byte list. -/
theorem baseXDecode_encode (bs : List Nat) (hb : ∀ x ∈ bs, x < 256) :
    baseXDecode (baseXEncode bs) = some bs := by
  obtain ⟨hsplit, hhead⟩ := leadCount_decompose 0 bs
  obtain ⟨hne1, hvals⟩ := natToB58Chars_spec (beBytesToNat bs)
  have hN : beBytesToNat bs = beBytesToNat (bs.drop (leadCount 0 bs)) := by
    conv_lhs => rw [hsplit]
    exact beBytesToNat_replicate_zero _ _
  have hrbytes : natToBeBytes (beBytesToNat (bs.drop (leadCount 0 bs))) =
      bs.drop (leadCount 0 bs) := by
    cases hr : bs.drop (leadCount 0 bs) with
    | nil =>
      rw [show beBytesToNat ([] : List Nat) = 0 from rfl, natToBeBytes_eq, Nat.digits_zero]
      rfl
    | cons r0 rt =>
      have hr0 : r0 ≠ 0 := by
        have h1 := hhead
        rw [hr] at h1
        exact h1
      have hlt' : ∀ x ∈ (r0 :: rt).reverse, x < 256 := by
        intro x hx
        refine hb x ?_
        have hxm : x ∈ bs.drop (leadCount 0 bs) := by
          rw [hr]; exact List.mem_reverse.mp hx
        exact List.mem_of_mem_drop hxm
      have hlast : ∀ (hne : (r0 :: rt).reverse ≠ []), ((r0 :: rt).reverse).getLast hne ≠ 0 := by
        intro hne
        rw [List.getLast_reverse]
        simpa using hr0
      rw [natToBeBytes_eq, beBytesToNat_eq,
        Nat.digits_ofDigits 256 (by omega) _ hlt' hlast, List.reverse_reverse]
  unfold baseXEncode
  rw [baseXDecode_eq_some
    (mapB58Vals_append (mapB58Vals_replicate_one (leadCount 0 bs)) hvals),
    leadCount_replicate_append '1' (leadCount 0 bs) _ hne1,
    b58ToNat_replicate_zero, b58ToNat_eq, List.reverse_reverse, Nat.ofDigits_digits,
    hN, hrbytes]
  exact congrArg some hsplit.symm

theorem b58Char_eq_one : ∀ d, d < 58 → b58Char d = '1' → d = 0 := by decide

theorem map_b58Char_all_one : ∀ (es : List Nat), (∀ d ∈ es, d < 58) →
    es.map b58Char = List.replicate es.length '1' → es = List.replicate es.length 0 := by
  intro es
  induction es with
  | nil => intro _ _; rfl
  | cons e r ih =>
    intro hlt h
    simp only [List.map_cons, List.length_cons, List.replicate_succ, List.cons.injEq] at h ⊢
    exact ⟨b58Char_eq_one e (hlt e (by simp)) h.1,
      ih (fun d hd => hlt d (by simp [hd])) h.2⟩

/-- The canonical base-58 rendering of the value of a digit list whose
first rendered character is not `'1'` is that digit list's rendering. -/
theorem natToB58Chars_of_digits {dt : List Nat} (hlt : ∀ d ∈ dt, d < 58)
    (hhead : headNe '1' (dt.map b58Char)) :
    natToB58Chars (Nat.ofDigits 58 dt.reverse) = dt.map b58Char := by
  cases dt with
  | nil =>
    rw [show Nat.ofDigits 58 ([] : List Nat).reverse = 0 from rfl]
    rfl
  | cons d0 r =>
    have hne : b58Char d0 ≠ '1' := hhead
    have hd0 : d0 ≠ 0 := by
      intro h0
      exact hne (by rw [h0]; rfl)
    have hw1 : ∀ x ∈ (d0 :: r).reverse, x < 58 := by
      intro x hx
      exact hlt x (List.mem_reverse.mp hx)
    have hw2 : ∀ (h : (d0 :: r).reverse ≠ []), ((d0 :: r).reverse).getLast h ≠ 0 := by
      intro h
      rw [List.getLast_reverse]
      simpa using hd0
    rw [natToB58Chars_eq, Nat.digits_ofDigits 58 (by omega) _ hw1 hw2, List.reverse_reverse]

/-- `encode (decode s) = s` for any string the decoder accepts, and the
decoded bytes are below 256. -/
theorem baseXEncode_decode {s : List Char} {bs : List Nat}
    (h : baseXDecode s = some bs) : baseXEncode bs = s ∧ ∀ x ∈ bs, x < 256 := by
  cases hm : mapB58Vals s with
  | none =>
    rw [baseXDecode_eq_none hm] at h
    simp at h
  | some ds =>
    have h3 : bs = List.replicate (leadCount '1' s) 0 ++ natToBeBytes (b58ToNat ds) :=
      Option.some.inj (h.symm.trans (baseXDecode_eq_some hm))
    obtain ⟨hsplit, hhead⟩ := leadCount_decompose '1' s
    obtain ⟨hmap, hlt⟩ := mapB58Vals_inv hm
    have hsl : s.length = ds.length := by rw [hmap]; simp
    have hkle : leadCount '1' s ≤ ds.length := by
      rw [← hsl]; exact leadCount_le '1' s
    have htmap : s.drop (leadCount '1' s) = (ds.drop (leadCount '1' s)).map b58Char := by
      rw [hmap, List.map_drop]
    have hdtlt : ∀ d ∈ ds.drop (leadCount '1' s), d < 58 :=
      fun d hd => hlt d (List.mem_of_mem_drop hd)
    have htake : s.take (leadCount '1' s) = List.replicate (leadCount '1' s) '1' := by
      nth_rewrite 2 [hsplit]
      exact List.take_left' (by simp)
    have htakelen : (ds.take (leadCount '1' s)).length = leadCount '1' s := by
      rw [List.length_take]; omega
    have hdz : ds.take (leadCount '1' s) = List.replicate (leadCount '1' s) 0 := by
      have hmt : (ds.take (leadCount '1' s)).map b58Char =
          List.replicate ((ds.take (leadCount '1' s)).length) '1' := by
        rw [List.map_take, ← hmap, htakelen, htake]
      have := map_b58Char_all_one (ds.take (leadCount '1' s))
        (fun d hd => hlt d (List.mem_of_mem_take hd)) hmt
      rw [htakelen] at this
      exact this
    have hds : ds = List.replicate (leadCount '1' s) 0 ++ ds.drop (leadCount '1' s) := by
      conv_lhs => rw [← List.take_append_drop (leadCount '1' s) ds, hdz]
    have hN : b58ToNat ds = Nat.ofDigits 58 (ds.drop (leadCount '1' s)).reverse := by
      conv_lhs => rw [hds]
      rw [b58ToNat_replicate_zero, b58ToNat_eq]
    have hheadt : headNe '1' ((ds.drop (leadCount '1' s)).map b58Char) := by
      rw [← htmap]; exact hhead
    constructor
    · rw [h3, baseXEncode_replicate_zero]
      have hlead : leadCount 0 (natToBeBytes (b58ToNat ds)) = 0 := by
        rw [hN, natToBeBytes_eq]
        by_cases h0 : Nat.ofDigits 58 (ds.drop (leadCount '1' s)).reverse = 0
        · rw [h0, Nat.digits_zero]
          rfl
        · obtain ⟨d, t', hdt', hd0, -⟩ :=
            reverse_digits_head (by omega : (1:Nat) < 256) h0
          rw [hdt']
          show (if d = 0 then leadCount 0 t' + 1 else 0) = 0
          rw [if_neg hd0]
      have hval : beBytesToNat (natToBeBytes (b58ToNat ds)) =
          Nat.ofDigits 58 (ds.drop (leadCount '1' s)).reverse := by
        rw [hN, natToBeBytes_eq, beBytesToNat_eq, List.reverse_reverse, Nat.ofDigits_digits]
      have henc : baseXEncode (natToBeBytes (b58ToNat ds)) =
          (ds.drop (leadCount '1' s)).map b58Char := by
        unfold baseXEncode
        rw [hlead, List.replicate_zero, List.nil_append, hval]
        exact natToB58Chars_of_digits hdtlt hheadt
      rw [henc, ← htmap]
      exact hsplit.symm
    · intro x hx
      rw [h3] at hx
      rcases List.mem_append.mp hx with hx | hx
      · have := List.eq_of_mem_replicate hx
        omega
      · rw [hN, natToBeBytes_eq] at hx
        exact Nat.digits_lt_base (by omega) (List.mem_reverse.mp hx)
/-! ## Digest shape lemmas -/

theorem shaRound_length (st : List Nat) (hst : st.length = 8) (k w : Nat) :
    (shaRound st k w).length = 8 := by
  rcases st with _ | ⟨a, _ | ⟨b, _ | ⟨c, _ | ⟨d, _ | ⟨e, _ | ⟨f, _ | ⟨g, _ | ⟨h, _ | ⟨i, t⟩⟩⟩⟩⟩⟩⟩⟩⟩ <;>
    first | rfl | exact hst

theorem foldl_shaRound_length (l : List (Nat × Nat)) :
    ∀ st : List Nat, st.length = 8 →
      (l.foldl (fun s kw => shaRound s kw.1 kw.2) st).length = 8 := by
  induction l with
  | nil => intro st hst; exact hst
  | cons p t ih => intro st hst; exact ih _ (shaRound_length st hst p.1 p.2)

theorem compressBlock_length (st block : List Nat) (hst : st.length = 8) :
    (compressBlock st block).length = 8 := by
  simp only [compressBlock]
  rw [List.length_zipWith, foldl_shaRound_length _ st hst, hst]
  rfl

theorem foldl_compress_length (blocks : List (List Nat)) :
    ∀ st, st.length = 8 → (blocks.foldl compressBlock st).length = 8 := by
  induction blocks with
  | nil => intro st hst; exact hst
  | cons b t ih => intro st hst; exact ih _ (compressBlock_length st b hst)

theorem flatMap_wordBe4_length (l : List Nat) : (l.flatMap wordBe4).length = 4 * l.length := by
  induction l with
  | nil => rfl
  | cons w t ih =>
    rw [List.flatMap_cons, List.length_append, ih]
    simp only [wordBe4, List.length_cons, List.length_nil]
    omega

theorem sha256_length (msg : List Nat) : (sha256 msg).length = 32 := by
  simp only [sha256]
  rw [flatMap_wordBe4_length, foldl_compress_length _ shaH0 rfl]

theorem sha256_lt (msg : List Nat) : ∀ x ∈ sha256 msg, x < 256 := by
  intro x hx
  simp only [sha256] at hx
  rw [List.mem_flatMap] at hx
  obtain ⟨w, -, hw⟩ := hx
  simp only [wordBe4, List.mem_cons, List.not_mem_nil, or_false] at hw
  have hle : ∀ y : Nat, y &&& 255 ≤ 255 := fun y => Nat.and_le_right
  rcases hw with rfl | rfl | rfl | rfl <;> exact Nat.lt_succ_of_le (hle _)

theorem hash_sha256_length (bytes : List Nat) : (hash_sha256 bytes).length = 64 := by
  unfold hash_sha256
  rw [hexEncode_length, sha256_length]

theorem hash_sha256_chars {bytes : List Nat} {c : Char} (hc : c ∈ hash_sha256 bytes) :
    ∃ v, v < 16 ∧ c = hexCharLower v :=
  hexEncode_mem (sha256_lt bytes) hc

theorem checksumOf_length (s : List Char) : (checksumOf s).length = 8 := by
  unfold checksumOf
  rw [List.length_take, hash_sha256_length]
  rfl

theorem checksumOf_chars {s : List Char} {c : Char} (hc : c ∈ checksumOf s) :
    ∃ v, v < 16 ∧ c = hexCharLower v :=
  hash_sha256_chars (List.mem_of_mem_take hc)

theorem map_asciiLower_fixed {l : List Char}
    (h : ∀ c ∈ l, ∃ v, v < 16 ∧ c = hexCharLower v) : l.map asciiLower = l := by
  induction l with
  | nil => rfl
  | cons c t ih =>
    obtain ⟨v, hv, hc⟩ := h c (by simp)
    subst hc
    rw [List.map_cons, asciiLower_hexCharLower v hv, ih (fun x hx => h x (by simp [hx]))]

/-! ## Evaluation lemmas for the two conversion functions -/

/-- `eth_to_vlx` on a well-formed `0x` input whose hex payload decodes. -/
theorem eth_to_vlx_eq (h : List Char) (bs : List Nat)
    (hdec : hexDecodeChars (h.map asciiLower ++ checksumOf (h.map asciiLower)) = some bs) :
    eth_to_vlx (String.mk ('0' :: 'x' :: h)) = .ok (String.mk ('V' :: padEncode bs)) := by
  simp only [eth_to_vlx, String.toList, List.cons_ne_nil, if_false, List.take_succ_cons,
    List.take_zero, List.drop_succ_cons, List.drop_zero, ite_not, ite_true, if_true,
    hash_sha256_length]
  rw [if_neg (by omega : ¬ (64 : Nat) < 8)]
  rw [show (hash_sha256 (strBytes (hash_sha256 (strBytes (h.map asciiLower))))).take 8 =
    checksumOf (h.map asciiLower) from rfl]
  simp only [hdec]

/-- `eth_to_vlx` panics when the hex payload does not decode. -/
theorem eth_to_vlx_panics (h : List Char)
    (hdec : hexDecodeChars (h.map asciiLower ++ checksumOf (h.map asciiLower)) = none) :
    eth_to_vlx (String.mk ('0' :: 'x' :: h)) = .panicked := by
  simp only [eth_to_vlx, String.toList, List.cons_ne_nil, if_false, List.take_succ_cons,
    List.take_zero, List.drop_succ_cons, List.drop_zero, ite_not, ite_true, if_true,
    hash_sha256_length]
  rw [if_neg (by omega : ¬ (64 : Nat) < 8)]
  rw [show (hash_sha256 (strBytes (hash_sha256 (strBytes (h.map asciiLower))))).take 8 =
    checksumOf (h.map asciiLower) from rfl]
  simp only [hdec]

/-- `vlx_to_eth` on a well-formed `V` input whose payload base-58
decodes to at least five bytes hands the regex captures to the body
check. -/
theorem vlx_to_eth_eq (rest : List Char) (bs : List Nat)
    (hdec : baseXDecode rest = some bs)
    (h9 : 9 ≤ (hexEncodeChars bs).length) :
    vlx_to_eth (String.mk ('V' :: rest)) = vlxCheckBody (vlxBody bs) (vlxCaps2 bs) := by
  simp only [vlx_to_eth, String.toList, List.cons_ne_nil, if_false, List.take_succ_cons,
    List.take_zero, List.drop_succ_cons, List.drop_zero, ite_not, ite_true, if_true, hdec]
  rw [if_neg (by omega : ¬ (hexEncodeChars bs).length < 9)]
  rfl

/-- `vlx_to_eth` panics when the decoded payload is shorter than five
bytes (the regex `captures(..).unwrap()`). -/
theorem vlx_to_eth_panics (rest : List Char) (bs : List Nat)
    (hdec : baseXDecode rest = some bs)
    (h9 : (hexEncodeChars bs).length < 9) :
    vlx_to_eth (String.mk ('V' :: rest)) = .panicked := by
  simp only [vlx_to_eth, String.toList, List.cons_ne_nil, if_false, List.take_succ_cons,
    List.take_zero, List.drop_succ_cons, List.drop_zero, ite_not, ite_true, if_true, hdec]
  rw [if_pos h9]

/-- The body check succeeds exactly on a matching checksum. -/
theorem vlxVerify_ok (ma caps2 : List Char)
    (hck : checksumOf ma = caps2) :
    vlxVerify ma caps2 = .ok (String.mk ('0' :: 'x' :: ma)) := by
  simp only [vlxVerify, hash_sha256_length]
  rw [if_neg (by omega : ¬ (64 : Nat) < 8)]
  rw [show (hash_sha256 (strBytes (hash_sha256 (strBytes ma)))).take 8 =
    checksumOf ma from rfl, hck]
  simp

theorem vlxVerify_mismatch (ma caps2 : List Char)
    (hck : checksumOf ma ≠ caps2) :
    vlxVerify ma caps2 = .err "Invalid checksum" := by
  simp only [vlxVerify, hash_sha256_length]
  rw [if_neg (by omega : ¬ (64 : Nat) < 8)]
  rw [show (hash_sha256 (strBytes (hash_sha256 (strBytes ma)))).take 8 =
    checksumOf ma from rfl]
  rw [if_pos hck]

/-- The only `Ok` output of the body check is the prefixed body. -/
theorem vlxVerify_ok_inv {ma caps2 : List Char} {out : String}
    (h : vlxVerify ma caps2 = .ok out) :
    checksumOf ma = caps2 ∧ out = String.mk ('0' :: 'x' :: ma) := by
  by_cases hck : checksumOf ma = caps2
  · rw [vlxVerify_ok ma caps2 hck] at h
    cases h
    exact ⟨hck, rfl⟩
  · rw [vlxVerify_mismatch ma caps2 hck] at h
    cases h

theorem vlxStrip_short {caps1 : List Char} (h : ¬ caps1.length > 40) :
    vlxStrip caps1 = some caps1 := by
  unfold vlxStrip
  rw [if_neg h]

theorem vlxStrip_long_ok {caps1 : List Char} (h : caps1.length > 40)
    (hz : caps1.take (caps1.length - 40) = List.replicate (caps1.length - 40) '0') :
    vlxStrip caps1 = some (caps1.drop (caps1.length - 40)) := by
  unfold vlxStrip
  rw [if_pos h, if_pos hz]

theorem vlxStrip_long_err {caps1 : List Char} (h : caps1.length > 40)
    (hz : ¬ caps1.take (caps1.length - 40) = List.replicate (caps1.length - 40) '0') :
    vlxStrip caps1 = none := by
  unfold vlxStrip
  rw [if_pos h, if_neg hz]

theorem vlxCheckBody_eq_verify {caps1 caps2 ma : List Char} (h : vlxStrip caps1 = some ma) :
    vlxCheckBody caps1 caps2 = vlxVerify ma caps2 := by
  unfold vlxCheckBody
  rw [h]

theorem vlxCheckBody_eq_err {caps1 caps2 : List Char} (h : vlxStrip caps1 = none) :
    vlxCheckBody caps1 caps2 = .err "Invalid address" := by
  unfold vlxCheckBody
  rw [h]

/-! ## Length bound for the encoded form of 24 raw bytes -/

theorem pow_bound : ∀ z, z ≤ 24 → 256 ^ (24 - z) ≤ 58 ^ (33 - z) := by decide

theorem baseXEncode_length_le (bs : List Nat) (hlt : ∀ b ∈ bs, b < 256)
    (hlen : bs.length = 24) : (baseXEncode bs).length ≤ 33 := by
  obtain ⟨hsplit, hhead⟩ := leadCount_decompose 0 bs
  have hz : leadCount 0 bs ≤ 24 := hlen ▸ leadCount_le 0 bs
  have hrl : (bs.drop (leadCount 0 bs)).length = 24 - leadCount 0 bs := by
    rw [List.length_drop, hlen]
  have hN : beBytesToNat bs = Nat.ofDigits 256 (bs.drop (leadCount 0 bs)).reverse := by
    conv_lhs => rw [hsplit]
    rw [beBytesToNat_replicate_zero, beBytesToNat_eq]
  have hNlt : beBytesToNat bs < 58 ^ (33 - leadCount 0 bs) := by
    rw [hN]
    calc Nat.ofDigits 256 (bs.drop (leadCount 0 bs)).reverse
        < 256 ^ ((bs.drop (leadCount 0 bs)).reverse).length :=
          Nat.ofDigits_lt_base_pow_length (by omega)
            (fun x hx => hlt x (List.mem_of_mem_drop (List.mem_reverse.mp hx)))
      _ = 256 ^ (24 - leadCount 0 bs) := by rw [List.length_reverse, hrl]
      _ ≤ 58 ^ (33 - leadCount 0 bs) := pow_bound _ hz
  have hdlen : (Nat.digits 58 (beBytesToNat bs)).length ≤ 33 - leadCount 0 bs := by
    by_cases h0 : beBytesToNat bs = 0
    · rw [h0, Nat.digits_zero]
      simp
    · have hlog := (Nat.lt_pow_iff_log_lt (by omega : (1:Nat) < 58) h0).mp hNlt
      rw [Nat.digits_len 58 _ (by omega) h0]
      omega
  unfold baseXEncode
  rw [List.length_append, List.length_replicate, natToB58Chars_eq, List.length_map,
    List.length_reverse]
  omega

theorem padEncode_eq {bs : List Nat} (hle : (baseXEncode bs).length ≤ 33) :
    padEncode bs = List.replicate (33 - (baseXEncode bs).length) '1' ++ baseXEncode bs := by
  simp only [padEncode]
  by_cases hlt : (baseXEncode bs).length < 33
  · rw [if_pos hlt]
  · rw [if_neg hlt]
    have h33 : 33 - (baseXEncode bs).length = 0 := by omega
    rw [h33, List.replicate_zero, List.nil_append]

/-! ## C1: hex → encoded → hex round trip -/

/-- C1: for every string of exactly 40 hexadecimal characters (any mix of
cases), `vlx_to_eth` applied to the `Ok` result of
`eth_to_vlx ("0x" ++ h)` returns `Ok ("0x" ++ lowercase h)`. -/
theorem c1_hex_roundtrip (h : List Char) (hlen : h.length = 40)
    (hhex : ∀ c ∈ h, isHexChar c = true) :
    ∃ s, eth_to_vlx (String.mk ('0' :: 'x' :: h)) = .ok s ∧
      vlx_to_eth s = .ok (String.mk ('0' :: 'x' :: h.map asciiLower)) := by
  have hhex' : ∀ c ∈ h, ∃ v, hexVal c = some v := by
    intro c hc
    have hs := hhex c hc
    rwa [isHexChar, Option.isSome_iff_exists] at hs
  have hclear : ∀ c ∈ h.map asciiLower, ∃ v, v < 16 ∧ c = hexCharLower v := by
    intro c hc
    rw [List.mem_map] at hc
    obtain ⟨c0, hc0, rfl⟩ := hc
    obtain ⟨v, hv⟩ := hhex' c0 hc0
    obtain ⟨hvlt, hlow, -⟩ := hexVal_spec hv
    exact ⟨v, hvlt, hlow⟩
  have hcleanlen : (h.map asciiLower).length = 40 := by rw [List.length_map, hlen]
  have hlongmem : ∀ c ∈ h.map asciiLower ++ checksumOf (h.map asciiLower),
      ∃ v, hexVal c = some v := by
    intro c hc
    rcases List.mem_append.mp hc with hc | hc
    · obtain ⟨v, hv, rfl⟩ := hclear c hc
      exact ⟨v, hexVal_hexCharLower v hv⟩
    · obtain ⟨v, hv, rfl⟩ := checksumOf_chars hc
      exact ⟨v, hexVal_hexCharLower v hv⟩
  have hlonglen : (h.map asciiLower ++ checksumOf (h.map asciiLower)).length = 48 := by
    rw [List.length_append, hcleanlen, checksumOf_length]
  obtain ⟨bs, hdec, hbslt, henc, hbs2⟩ := hexDecode_spec _ (by omega) hlongmem
  have hbslen : bs.length = 24 := by omega
  have hfix : (h.map asciiLower ++ checksumOf (h.map asciiLower)).map asciiLower =
      h.map asciiLower ++ checksumOf (h.map asciiLower) := by
    apply map_asciiLower_fixed
    intro c hc
    rcases List.mem_append.mp hc with hc | hc
    · exact hclear c hc
    · exact checksumOf_chars hc
  rw [hfix] at henc
  refine ⟨String.mk ('V' :: padEncode bs), eth_to_vlx_eq h bs hdec, ?_⟩
  have hle := baseXEncode_length_le bs hbslt hbslen
  have hpadenc : padEncode bs =
      baseXEncode (List.replicate (33 - (baseXEncode bs).length) 0 ++ bs) := by
    rw [baseXEncode_replicate_zero, padEncode_eq hle]
  have hdec2 : baseXDecode (padEncode bs) =
      some (List.replicate (33 - (baseXEncode bs).length) 0 ++ bs) := by
    rw [hpadenc]
    apply baseXDecode_encode
    intro x hx
    rcases List.mem_append.mp hx with hx | hx
    · have := List.eq_of_mem_replicate hx
      omega
    · exact hbslt x hx
  set p := 33 - (baseXEncode bs).length with hp
  have hhx : hexEncodeChars (List.replicate p 0 ++ bs) =
      List.replicate (2 * p) '0' ++ (h.map asciiLower ++ checksumOf (h.map asciiLower)) := by
    rw [hexEncode_append, hexEncode_replicate_zero, henc]
  have hhxlen : (hexEncodeChars (List.replicate p 0 ++ bs)).length = 2 * p + 48 := by
    rw [hhx, List.length_append, List.length_replicate, hlonglen]
  rw [vlx_to_eth_eq (padEncode bs) _ hdec2 (by omega)]
  have hcaps1 : vlxBody (List.replicate p 0 ++ bs) =
      List.replicate (2 * p) '0' ++ h.map asciiLower := by
    unfold vlxBody
    rw [hhxlen, hhx, show 2 * p + 48 - 8 = 2 * p + 40 from by omega,
      List.take_append_eq_append_take, List.length_replicate,
      List.take_of_length_le (by rw [List.length_replicate]; omega),
      show 2 * p + 40 - 2 * p = 40 from by omega, List.take_left' hcleanlen]
  have hcaps2 : vlxCaps2 (List.replicate p 0 ++ bs) = checksumOf (h.map asciiLower) := by
    unfold vlxCaps2
    rw [hhxlen, hhx, show 2 * p + 48 - 8 = 2 * p + 40 from by omega,
      List.drop_append_eq_append_drop, List.length_replicate,
      List.drop_of_length_le (by rw [List.length_replicate]; omega),
      show 2 * p + 40 - 2 * p = 40 from by omega, List.drop_left' hcleanlen,
      List.nil_append]
  rw [hcaps1, hcaps2]
  rcases Nat.eq_zero_or_pos p with hp0 | hp0
  · rw [hp0, Nat.mul_zero, List.replicate_zero, List.nil_append]
    rw [vlxCheckBody_eq_verify (vlxStrip_short (by omega))]
    exact vlxVerify_ok _ _ rfl
  · have hlen1 : (List.replicate (2 * p) '0' ++ h.map asciiLower).length = 2 * p + 40 := by
      rw [List.length_append, List.length_replicate, hcleanlen]
    have hstrip : vlxStrip (List.replicate (2 * p) '0' ++ h.map asciiLower) =
        some (h.map asciiLower) := by
      have hgt : (List.replicate (2 * p) '0' ++ h.map asciiLower).length > 40 := by omega
      have hlene : (List.replicate (2 * p) '0' ++ h.map asciiLower).length - 40 = 2 * p := by
        omega
      have htk : (List.replicate (2 * p) '0' ++ h.map asciiLower).take
          ((List.replicate (2 * p) '0' ++ h.map asciiLower).length - 40) =
          List.replicate ((List.replicate (2 * p) '0' ++ h.map asciiLower).length - 40) '0' := by
        rw [hlene, List.take_left' (by simp)]
      rw [vlxStrip_long_ok hgt htk, hlene, List.drop_left' (by simp)]
    rw [vlxCheckBody_eq_verify hstrip]
    exact vlxVerify_ok _ _ rfl

/-- C1 witness: the canonical 40-hex-character body satisfies both
hypotheses of the round trip. -/
theorem c1_hex_roundtrip_witness :
    canonicalBody.length = 40 ∧ (∀ c ∈ canonicalBody, isHexChar c = true) ∧
    ∃ s, eth_to_vlx (String.mk ('0' :: 'x' :: canonicalBody)) = .ok s ∧
      vlx_to_eth s = .ok (String.mk ('0' :: 'x' :: canonicalBody.map asciiLower)) :=
  ⟨by decide, by decide, c1_hex_roundtrip canonicalBody (by decide) (by decide)⟩

/-! ## C4: encoded → hex → encoded round trip -/

/-- C4 (amended): every validly-checksummed encoded address whose
decoded body is exactly 40 hex characters *and whose base-58 part is
exactly 33 characters* (the minimum-length padded form the encoder
emits) round-trips through `vlx_to_eth` then `eth_to_vlx`. -/
theorem c4_encoded_roundtrip (rest : List Char) (bs : List Nat)
    (hdec : baseXDecode rest = some bs)
    (hrest : rest.length = 33)
    (hbs : bs.length = 24)
    (hck : checksumOf ((hexEncodeChars bs).take 40) = (hexEncodeChars bs).drop 40) :
    vlx_to_eth (String.mk ('V' :: rest)) =
      .ok (String.mk ('0' :: 'x' :: (hexEncodeChars bs).take 40))
    ∧ eth_to_vlx (String.mk ('0' :: 'x' :: (hexEncodeChars bs).take 40)) =
      .ok (String.mk ('V' :: rest)) := by
  obtain ⟨hencrest, hblt⟩ := baseXEncode_decode hdec
  have hhxlen : (hexEncodeChars bs).length = 48 := by rw [hexEncode_length, hbs]
  have hbody : vlxBody bs = (hexEncodeChars bs).take 40 := by
    unfold vlxBody
    rw [hhxlen]
  have hcaps2 : vlxCaps2 bs = (hexEncodeChars bs).drop 40 := by
    unfold vlxCaps2
    rw [hhxlen]
  have hbodylen : ((hexEncodeChars bs).take 40).length = 40 := by
    rw [List.length_take, hhxlen]
    omega
  constructor
  · rw [vlx_to_eth_eq rest bs hdec (by omega), hbody, hcaps2,
      vlxCheckBody_eq_verify (vlxStrip_short (by omega)), vlxVerify_ok _ _ hck]
  · have hmemtake : ∀ c ∈ (hexEncodeChars bs).take 40, ∃ v, v < 16 ∧ c = hexCharLower v :=
      fun c hc => hexEncode_mem hblt (List.mem_of_mem_take hc)
    have hfix : ((hexEncodeChars bs).take 40).map asciiLower = (hexEncodeChars bs).take 40 :=
      map_asciiLower_fixed hmemtake
    have hdec1 : hexDecodeChars (((hexEncodeChars bs).take 40).map asciiLower ++
        checksumOf (((hexEncodeChars bs).take 40).map asciiLower)) = some bs := by
      rw [hfix, hck, List.take_append_drop]
      exact hexDecode_encode bs hblt
    rw [eth_to_vlx_eq _ bs hdec1]
    have hpe : padEncode bs = rest := by
      simp only [padEncode]
      rw [hencrest, hrest]
      rw [if_neg (by omega)]
    rw [hpe]

set_option maxRecDepth 1000000 in
set_option maxHeartbeats 1000000 in
/-- C4 counterexample: the claim without the 33-character condition is
false — this validly-checksummed address decodes to a 40-character body
with nothing stripped, yet re-encoding pads it to a longer, different
string. -/
theorem c4_counterexample :
    vlx_to_eth "V6HgC8KRBEhXYbF4riJyJFLSHt3351pwE" =
      .ok "0x0100000000000000000000000000000000000000"
    ∧ eth_to_vlx "0x0100000000000000000000000000000000000000" =
      .ok "V16HgC8KRBEhXYbF4riJyJFLSHt3351pwE"
    ∧ ("V16HgC8KRBEhXYbF4riJyJFLSHt3351pwE" : String) ≠
      "V6HgC8KRBEhXYbF4riJyJFLSHt3351pwE" :=
  ⟨by decide, by decide, by decide⟩

set_option maxRecDepth 1000000 in
set_option maxHeartbeats 1000000 in
/-- C4 witness: the canonical vector satisfies every hypothesis of the
amended round trip. -/
theorem c4_encoded_roundtrip_witness :
    baseXDecode c4Rest = some c4Bytes ∧ c4Rest.length = 33 ∧ c4Bytes.length = 24 ∧
    checksumOf ((hexEncodeChars c4Bytes).take 40) = (hexEncodeChars c4Bytes).drop 40 ∧
    (vlx_to_eth (String.mk ('V' :: c4Rest)) =
        .ok (String.mk ('0' :: 'x' :: (hexEncodeChars c4Bytes).take 40))
      ∧ eth_to_vlx (String.mk ('0' :: 'x' :: (hexEncodeChars c4Bytes).take 40)) =
        .ok (String.mk ('V' :: c4Rest))) :=
  ⟨by decide, by decide, by decide, by decide,
    c4_encoded_roundtrip c4Rest c4Bytes (by decide) (by decide) (by decide) (by decide)⟩

/-! ## C6: decoder padding recovery -/

/-- C6: when the regex body is longer than 40 characters, the call fails
with `InvalidFormat` unless the excess leading characters are all `'0'`;
when they are, those zeros are stripped and the remaining 40-character
body goes to the checksum check, and any `Ok` output is the stripped
body. -/
theorem c6_padding_recovery (rest : List Char) (bs : List Nat)
    (hdec : baseXDecode rest = some bs)
    (h9 : 9 ≤ (hexEncodeChars bs).length)
    (hgt : (vlxBody bs).length > 40) :
    ((vlxBody bs).take ((vlxBody bs).length - 40) ≠
        List.replicate ((vlxBody bs).length - 40) '0' →
      vlx_to_eth (String.mk ('V' :: rest)) = .err "Invalid address")
    ∧ ((vlxBody bs).take ((vlxBody bs).length - 40) =
        List.replicate ((vlxBody bs).length - 40) '0' →
      vlx_to_eth (String.mk ('V' :: rest)) =
        vlxVerify ((vlxBody bs).drop ((vlxBody bs).length - 40)) (vlxCaps2 bs) ∧
      ((vlxBody bs).drop ((vlxBody bs).length - 40)).length = 40)
    ∧ (∀ out, vlx_to_eth (String.mk ('V' :: rest)) = .ok out →
      (vlxBody bs).take ((vlxBody bs).length - 40) =
        List.replicate ((vlxBody bs).length - 40) '0' ∧
      out = String.mk ('0' :: 'x' :: (vlxBody bs).drop ((vlxBody bs).length - 40))) := by
  have heq := vlx_to_eth_eq rest bs hdec h9
  refine ⟨?_, ?_, ?_⟩
  · intro hne
    rw [heq, vlxCheckBody_eq_err (vlxStrip_long_err hgt hne)]
  · intro hz
    refine ⟨?_, ?_⟩
    · rw [heq, vlxCheckBody_eq_verify (vlxStrip_long_ok hgt hz)]
    · rw [List.length_drop]
      omega
  · intro out hout
    by_cases hz : (vlxBody bs).take ((vlxBody bs).length - 40) =
        List.replicate ((vlxBody bs).length - 40) '0'
    · rw [heq, vlxCheckBody_eq_verify (vlxStrip_long_ok hgt hz)] at hout
      exact ⟨hz, (vlxVerify_ok_inv hout).2⟩
    · rw [heq, vlxCheckBody_eq_err (vlxStrip_long_err hgt hz)] at hout
      cases hout

set_option maxRecDepth 1000000 in
/-- C6 witness: a 25-byte decode whose 42-character body starts with
`01`, hitting the invalid-excess branch. -/
theorem c6_padding_recovery_witness :
    baseXDecode c6BadRest = some c6BadBytes ∧
    9 ≤ (hexEncodeChars c6BadBytes).length ∧
    (vlxBody c6BadBytes).length > 40 ∧
    (((vlxBody c6BadBytes).take ((vlxBody c6BadBytes).length - 40) ≠
        List.replicate ((vlxBody c6BadBytes).length - 40) '0' →
      vlx_to_eth (String.mk ('V' :: c6BadRest)) = .err "Invalid address")
    ∧ ((vlxBody c6BadBytes).take ((vlxBody c6BadBytes).length - 40) =
        List.replicate ((vlxBody c6BadBytes).length - 40) '0' →
      vlx_to_eth (String.mk ('V' :: c6BadRest)) =
        vlxVerify ((vlxBody c6BadBytes).drop ((vlxBody c6BadBytes).length - 40))
          (vlxCaps2 c6BadBytes) ∧
      ((vlxBody c6BadBytes).drop ((vlxBody c6BadBytes).length - 40)).length = 40)
    ∧ (∀ out, vlx_to_eth (String.mk ('V' :: c6BadRest)) = .ok out →
      (vlxBody c6BadBytes).take ((vlxBody c6BadBytes).length - 40) =
        List.replicate ((vlxBody c6BadBytes).length - 40) '0' ∧
      out = String.mk ('0' :: 'x' ::
        (vlxBody c6BadBytes).drop ((vlxBody c6BadBytes).length - 40)))) :=
  ⟨by decide, by decide, by decide,
    c6_padding_recovery c6BadRest c6BadBytes (by decide) (by decide) (by decide)⟩

/-! ## C10: the encoder has no identifier length check -/

/-- C10: every even-length string of hex digits is accepted by the
encoder, whatever its length. -/
theorem c10_no_length_check (h : List Char)
    (hhex : ∀ c ∈ h, isHexChar c = true) (heven : h.length % 2 = 0) :
    ∃ s, eth_to_vlx (String.mk ('0' :: 'x' :: h)) = .ok s := by
  have hhex' : ∀ c ∈ h, ∃ v, hexVal c = some v := by
    intro c hc
    have hs := hhex c hc
    rwa [isHexChar, Option.isSome_iff_exists] at hs
  have hclear : ∀ c ∈ h.map asciiLower, ∃ v, v < 16 ∧ c = hexCharLower v := by
    intro c hc
    rw [List.mem_map] at hc
    obtain ⟨c0, hc0, rfl⟩ := hc
    obtain ⟨v, hv⟩ := hhex' c0 hc0
    obtain ⟨hvlt, hlow, -⟩ := hexVal_spec hv
    exact ⟨v, hvlt, hlow⟩
  have hlongmem : ∀ c ∈ h.map asciiLower ++ checksumOf (h.map asciiLower),
      ∃ v, hexVal c = some v := by
    intro c hc
    rcases List.mem_append.mp hc with hc | hc
    · obtain ⟨v, hv, rfl⟩ := hclear c hc
      exact ⟨v, hexVal_hexCharLower v hv⟩
    · obtain ⟨v, hv, rfl⟩ := checksumOf_chars hc
      exact ⟨v, hexVal_hexCharLower v hv⟩
  have hlonglen : (h.map asciiLower ++ checksumOf (h.map asciiLower)).length =
      h.length + 8 := by
    rw [List.length_append, List.length_map, checksumOf_length]
  obtain ⟨bs, hdec, -, -, -⟩ := hexDecode_spec _ (by omega) hlongmem
  exact ⟨_, eth_to_vlx_eq h bs hdec⟩

set_option maxRecDepth 1000000 in
set_option maxHeartbeats 1000000 in
/-- C10 witness: the 4-digit identifier `abcd` is accepted. -/
theorem c10_no_length_check_witness :
    (∀ c ∈ ['a', 'b', 'c', 'd'], isHexChar c = true) ∧
    (['a', 'b', 'c', 'd'] : List Char).length % 2 = 0 ∧
    ∃ s, eth_to_vlx (String.mk ('0' :: 'x' :: ['a', 'b', 'c', 'd'])) = .ok s :=
  ⟨by decide, by decide, c10_no_length_check ['a', 'b', 'c', 'd'] (by decide) (by decide)⟩

/-! ## C9: prefix and emptiness rejection -/

/-- C9: the empty string and any string with the wrong prefix are
rejected with `InvalidFormat` by both functions. -/
theorem c9_format_rejection :
    (∀ s : String, s.toList ≠ [] → s.toList.take 1 ≠ ['V'] →
      vlx_to_eth s = .err "Invalid address")
    ∧ (∀ s : String, s.toList ≠ [] → s.toList.take 2 ≠ ['0', 'x'] →
      eth_to_vlx s = .err "Invalid address")
    ∧ vlx_to_eth "" = .err "Invalid address"
    ∧ vlx_to_eth "Xabc" = .err "Invalid address"
    ∧ eth_to_vlx "" = .err "Invalid address"
    ∧ eth_to_vlx "32Be343B94f860124dC4fEe278FDCBD38C102D88" = .err "Invalid address" := by
  refine ⟨?_, ?_, by decide, by decide, by decide, by decide⟩
  · intro s h1 h2
    simp only [vlx_to_eth]
    rw [if_neg h1, if_pos h2]
  · intro s h1 h2
    simp only [eth_to_vlx]
    rw [if_neg h1, if_pos h2]

/-- C9 witness: the general prefix-rejection clauses at the two concrete
wrong-prefix inputs. -/
theorem c9_format_rejection_witness :
    vlx_to_eth "Xabc" = .err "Invalid address" ∧
    eth_to_vlx "32Be343B94f860124dC4fEe278FDCBD38C102D88" = .err "Invalid address" :=
  ⟨c9_format_rejection.1 "Xabc" (by decide) (by decide),
   c9_format_rejection.2.1 "32Be343B94f860124dC4fEe278FDCBD38C102D88" (by decide) (by decide)⟩

/-! ## C2: literal vectors -/

set_option maxRecDepth 1000000 in
set_option maxHeartbeats 1000000 in
/-- C2: the two literal conversion vectors hold exactly. -/
theorem c2_literal_vectors :
    eth_to_vlx "0x32Be343B94f860124dC4fEe278FDCBD38C102D88" =
      .ok "V5dJeCa7bmkqmZF53TqjRbnB4fG6hxuu4f"
    ∧ vlx_to_eth "V5dJeCa7bmkqmZF53TqjRbnB4fG6hxuu4f" =
      .ok "0x32be343b94f860124dc4fee278fdcbd38c102d88" :=
  ⟨by decide, by decide⟩

/-! ## C5: encoder padding -/

set_option maxRecDepth 1000000 in
set_option maxHeartbeats 1000000 in
/-- C5: an encoding shorter than 33 characters is left-padded with `'1'`
to exactly 33 characters before the `V` prefix; the all-zero address
yields an `Ok` string of 34 characters beginning `V1111`. -/
theorem c5_encoder_padding (bytes : List Nat)
    (hshort : (baseXEncode bytes).length < 33) :
    padEncode bytes =
      List.replicate (33 - (baseXEncode bytes).length) '1' ++ baseXEncode bytes
    ∧ (padEncode bytes).length = 33
    ∧ (∃ s, eth_to_vlx "0x0000000000000000000000000000000000000000" = .ok s ∧
        s.length = 34 ∧ s.toList.take 5 = ['V', '1', '1', '1', '1']) := by
  have hpe := padEncode_eq (Nat.le_of_lt hshort)
  refine ⟨hpe, ?_, ?_⟩
  · rw [hpe, List.length_append, List.length_replicate]
    omega
  · exact ⟨"V1111111111111111111111111113iMDfC", by decide, by decide, by decide⟩

/-- C5 witness: the single byte `0` encodes to one character, so padding
applies. -/
theorem c5_encoder_padding_witness :
    (baseXEncode [0]).length < 33 ∧
    (padEncode [0] = List.replicate (33 - (baseXEncode [0]).length) '1' ++ baseXEncode [0]
    ∧ (padEncode [0]).length = 33
    ∧ (∃ s, eth_to_vlx "0x0000000000000000000000000000000000000000" = .ok s ∧
        s.length = 34 ∧ s.toList.take 5 = ['V', '1', '1', '1', '1'])) :=
  ⟨by decide, c5_encoder_padding [0] (by decide)⟩

/-! ## C7: the encoder panics on malformed hex (code bug) -/

set_option maxRecDepth 1000000 in
set_option maxHeartbeats 1000000 in
/-- C7 (code behaviour): on a non-hex or odd-length remainder the
encoder panics via `hex::decode(..).unwrap()` instead of returning the
`InvalidFormat` error the claim requires. -/
theorem c7_encoder_panics :
    eth_to_vlx "0xzz" = .panicked ∧ eth_to_vlx "0x123" = .panicked :=
  ⟨by decide, by decide⟩

/-! ## C8: the decoder panics on short payloads (code bug) -/

set_option maxRecDepth 1000000 in
/-- C8 (code behaviour): a payload outside the alphabet is rejected with
`InvalidFormat`, but a payload that decodes to fewer than 9 hex
characters panics via `re.captures(..).unwrap()` instead of returning
`InvalidFormat` as the claim requires. -/
theorem c8_decoder_short_panics :
    vlx_to_eth "V1" = .panicked
    ∧ vlx_to_eth "V1111" = .panicked
    ∧ vlx_to_eth "V0" = .err "Invalid address"
    ∧ vlx_to_eth "VO" = .err "Invalid address" :=
  ⟨by decide, by decide, by decide, by decide⟩

/-! ## C3: checksum mismatch is a distinct error -/

set_option maxRecDepth 1000000 in
set_option maxHeartbeats 20000000 in
/-- C3: a structurally well-formed input whose embedded checksum differs
from the recomputed one fails with `ChecksumMismatch`, an error value
distinct from `InvalidFormat`; concretely, altering a single body
character of the canonical test vector (positions sampled across the
body to the next hex digit, and position 7 to several other digits)
while keeping the original checksum makes `vlx_to_eth` fail with
`ChecksumMismatch`. -/
theorem c3_checksum_mismatch :
    (∀ (rest : List Char) (bs : List Nat) (ma : List Char),
      baseXDecode rest = some bs →
      9 ≤ (hexEncodeChars bs).length →
      vlxStrip (vlxBody bs) = some ma →
      checksumOf ma ≠ vlxCaps2 bs →
      vlx_to_eth (String.mk ('V' :: rest)) = .err "Invalid checksum")
    ∧ RustResult.err "Invalid checksum" ≠ RustResult.err "Invalid address"
    ∧ checksumOf canonicalBody = canonicalCk
    ∧ (∀ i ∈ ([0, 5, 11, 17] : List Nat),
      vlx_to_eth (alteredAddr i (digitSucc i)) = .err "Invalid checksum")
    ∧ (∀ i ∈ ([23, 29, 34, 39] : List Nat),
      vlx_to_eth (alteredAddr i (digitSucc i)) = .err "Invalid checksum")
    ∧ (∀ v ∈ ([0, 6, 10, 15] : List Nat),
      vlx_to_eth (alteredAddr 7 v) = .err "Invalid checksum") := by
  refine ⟨?_, by decide, by decide, by decide, by decide, by decide⟩
  intro rest bs ma hdec h9 hstrip hck
  rw [vlx_to_eth_eq rest bs hdec h9, vlxCheckBody_eq_verify hstrip,
    vlxVerify_mismatch _ _ hck]

set_option maxRecDepth 1000000 in
set_option maxHeartbeats 1000000 in
/-- C3 witness: an address embedding the checksum `00000000` over a
20-`0xff`-byte body fails with the checksum error. -/
theorem c3_checksum_mismatch_witness :
    vlx_to_eth (String.mk ('V' :: c3MismatchRest)) = .err "Invalid checksum" :=
  c3_checksum_mismatch.1 c3MismatchRest c3MismatchBytes (vlxBody c3MismatchBytes)
    (by decide) (by decide) (by decide) (by decide)

end VelasAddress
